import Mathlib

/-!
Shallow embedding of the `more-itertools` recipe library
(`src/__init__.py`) and verification of its specification claims.

An input iterable is modelled as a `PySeq`: the list of elements its
forward traversal yields, the list its reverse traversal yields (when it
advertises one), and the three capability flags the code probes with
`isinstance` checks (`Sized`, `Reversible`, `Sequence`).  A well-behaved
Python object reverses consistently: `Coherent` states that its reverse
traversal is the exact reverse of its forward traversal.

Fallible recipes return `Except PyErr` with the three exception kinds the
library raises; the optional varadic default becomes an `Option`
argument.  Generator laziness is modelled by letting each generator
produce the full list of elements it would yield if driven to
exhaustion, together with the error, if any, that terminates it.
-/

namespace Moreitertools

/-- The three Python exception kinds the library raises. -/
inductive PyErr where
  | valueError
  | indexError
  | typeError
deriving DecidableEq, Repr

/-- A Python iterable, as the recipes observe it: its forward traversal,
its reverse traversal (consulted only when `reversible` holds), and the
capability flags probed via `isinstance(x, Sized / Reversible / Sequence)`. -/
structure PySeq (α : Type) where
  elems : List α
  revElems : List α
  sized : Bool
  reversible : Bool
  indexable : Bool

/-- A well-behaved iterable: its reverse traversal yields exactly the
reverse of its forward traversal. -/
def Coherent (x : PySeq α) : Prop := x.revElems = x.elems.reverse

/-- Builds a plain list-backed input with the given capability flags and a
consistent reverse traversal. -/
def PySeq.ofList (l : List α) (sized reversible indexable : Bool) : PySeq α :=
  ⟨l, l.reverse, sized, reversible, indexable⟩

theorem coherent_ofList (l : List α) (s r i : Bool) :
    Coherent (PySeq.ofList l s r i) := rfl

/-- `first(x, *args)`: `next(iter(x), *args)`, turning exhaustion into
`ValueError` when no default was supplied. -/
def first (x : PySeq α) (dflt : Option α) : Except PyErr α :=
  match x.elems.head?, dflt with
  | some v, _ => .ok v
  | none, some d => .ok d
  | none, none => .error .valueError

/-- `last(x, *args)`: `next(reversed(x), *args)` when the input is
reversible, otherwise a forward walk retaining the most recent element;
exhaustion becomes `ValueError` when no default was supplied. -/
def last (x : PySeq α) (dflt : Option α) : Except PyErr α :=
  match (if x.reversible then x.revElems.head? else x.elems.getLast?), dflt with
  | some v, _ => .ok v
  | none, some d => .ok d
  | none, none => .error .valueError

/-- The dispatch core of `nth(x, n, *args)`: `none` models the internal
`IndexError`.  Sized inputs normalize a negative `n` by adding `len(x)`
and reject out-of-range indices; indexable inputs use `x[n]`; reversible
sized inputs with the normalized index in the back half walk
`reversed(x)` to position `len(x)-n-1`; everything else is a forward
`islice` walk, with `tuple(x)[n]` buffering for a negative `n` on an
unsized input. -/
def nthUnchecked (x : PySeq α) (n : Int) : Option α :=
  if x.sized then
    let l := x.elems.length
    let n1 : Int := if n < 0 then n + l else n
    if n1 < 0 ∨ (l : Int) ≤ n1 then none
    else
      let m := n1.toNat
      if x.indexable then x.elems[m]?
      else if x.reversible ∧ l / 2 ≤ m then x.revElems[l - m - 1]?
      else x.elems[m]?
  else if n < 0 then
    if n + (x.elems.length : Int) < 0 then none
    else x.elems[(n + (x.elems.length : Int)).toNat]?
  else x.elems[n.toNat]?

/-- `nth(x, n, *args)`: the dispatch core, with the caught `IndexError`
replaced by the default when one was supplied. -/
def nth (x : PySeq α) (n : Int) (dflt : Option α) : Except PyErr α :=
  match nthUnchecked x n, dflt with
  | some v, _ => .ok v
  | none, some d => .ok d
  | none, none => .error .indexError

/-- `reversediter(x)`: native reverse traversal when available, otherwise
`reversed(tuple(x))`. -/
def reversediter (x : PySeq α) : List α := if x.reversible then x.revElems else x.elems.reverse

/-- `head(x, n)`: `islice(x, n)` for `n ≥ 0`; for `n < 0`, the last `-n`
elements, taken from the reverse traversal and re-reversed when the input
is reversible, else kept in a bounded deque while walking forward. -/
def head (x : PySeq α) (n : Int) : List α :=
  if 0 ≤ n then x.elems.take n.toNat
  else
    let m := (-n).toNat
    if x.reversible then (x.revElems.take m).reverse
    else x.elems.drop (x.elems.length - m)

/-- `tail(x, n)`: delegates to `head.unchecked(x, -n)`. -/
def tail (x : PySeq α) (n : Int) : List α := head x (-n)

/-- `next(filter(pred, xs), *args)` over a plain traversal, the shared
body of `first_true` and `last_true`; exhaustion becomes `ValueError`
when no default was supplied. -/
def first_true_list (pred : α → Bool) (xs : List α) (dflt : Option α) : Except PyErr α :=
  match xs.find? pred, dflt with
  | some v, _ => .ok v
  | none, some d => .ok d
  | none, none => .error .valueError

/-- `first_true(x, *args, pred)`. -/
def first_true (x : PySeq α) (pred : α → Bool) (dflt : Option α) : Except PyErr α :=
  first_true_list pred x.elems dflt

/-- `first_false(x, *args, pred)`: `next(filterfalse(pred, x), *args)`. -/
def first_false (x : PySeq α) (pred : α → Bool) (dflt : Option α) : Except PyErr α :=
  first_true_list (fun a => !(pred a)) x.elems dflt

/-- `last_true(x, *args, pred)`: `first_true.unchecked(reversediter(x), ...)`. -/
def last_true (x : PySeq α) (pred : α → Bool) (dflt : Option α) : Except PyErr α :=
  first_true_list pred (reversediter x) dflt

/-- `last_false(x, *args, pred)`: `first_false.unchecked(reversediter(x), ...)`. -/
def last_false (x : PySeq α) (pred : α → Bool) (dflt : Option α) : Except PyErr α :=
  first_true_list (fun a => !(pred a)) (reversediter x) dflt

/-- `_check_varadics(args)`: at most one varadic default, else `TypeError`. -/
def check_varadics (args : List α) : Bool := args.length ≤ 1

/-- The `@checker`-wrapped `first`: validation runs before the body. -/
def first_checked (x : PySeq α) (args : List α) : Except PyErr α :=
  if check_varadics args then first x args.head? else .error .typeError

/-- The `@checker`-wrapped `last`. -/
def last_checked (x : PySeq α) (args : List α) : Except PyErr α :=
  if check_varadics args then last x args.head? else .error .typeError

/-- The `@checker`-wrapped `first_true`. -/
def first_true_checked (x : PySeq α) (pred : α → Bool) (args : List α) : Except PyErr α :=
  if check_varadics args then first_true x pred args.head? else .error .typeError

/-- The `@checker`-wrapped `first_false`. -/
def first_false_checked (x : PySeq α) (pred : α → Bool) (args : List α) : Except PyErr α :=
  if check_varadics args then first_false x pred args.head? else .error .typeError

/-- The `@checker`-wrapped `last_true`. -/
def last_true_checked (x : PySeq α) (pred : α → Bool) (args : List α) : Except PyErr α :=
  if check_varadics args then last_true x pred args.head? else .error .typeError

/-- The `@checker`-wrapped `last_false`. -/
def last_false_checked (x : PySeq α) (pred : α → Bool) (args : List α) : Except PyErr α :=
  if check_varadics args then last_false x pred args.head? else .error .typeError

/-- The `@checker`-wrapped `nth`. -/
def nth_checked (x : PySeq α) (n : Int) (args : List α) : Except PyErr α :=
  if check_varadics args then nth x n args.head? else .error .typeError

/-- `ncycles(x, n)` body for a validated count: `n == 0` yields nothing,
`n == 1` streams the input once, larger counts yield the buffered
elements `n` times over. -/
def ncycles (x : PySeq α) (n : Nat) : List α :=
  if n = 0 then []
  else if n = 1 then x.elems
  else (List.replicate n x.elems).flatten

/-- The `@checker`-wrapped `ncycles`: `_check_quantity` rejects a negative
count with `TypeError` before the generator body can run.  (A non-integer
count is rejected by the same check; it is outside this model, where the
count is an integer by type.) -/
def ncycles_checked (x : PySeq α) (n : Int) : Except PyErr (List α) :=
  if n < 0 then .error .typeError else .ok (ncycles x n.toNat)

/-- `repeatfunc(f, n, *args)` body for a validated finite count: the `k`-th
pulled element is the result of the `k`-th call of `f`.  (The `n is None`
infinite stream is outside this finite-list model.) -/
def repeatfunc (f : Nat → α) (n : Nat) : List α := (List.range n).map f

/-- The `@checker`-wrapped `repeatfunc`: `_check_quantity` rejects a
negative count with `TypeError` before any call of `f` is made. -/
def repeatfunc_checked (f : Nat → α) (n : Int) : Except PyErr (List α) :=
  if n < 0 then .error .typeError else .ok (repeatfunc f n.toNat)

/-- `partition(pred, x)` over a re-iterable source: `filter(pred, x)` and
`filterfalse(pred, x)` each obtain their own independent iterator. -/
def partition (pred : α → Bool) (xs : List α) : List α × List α :=
  (xs.filter pred, xs.filter fun a => !(pred a))

/-- Driving `filter(pred, it)` to exhaustion over a one-shot iterator
whose remaining elements are `it`: the pulls yield the matching elements
and leave the shared iterator exhausted. -/
def filterDrive (pred : α → Bool) (it : List α) : List α × List α :=
  (it.filter pred, [])

/-- `partition(pred, x)` handed a one-shot iterator, with the caller
driving the first returned sequence to exhaustion and then the second:
`filter` and `filterfalse` wrap the same underlying iterator, so the
second sequence starts from whatever the first left unconsumed. -/
def partition_oneshot (pred : α → Bool) (xs : List α) : List α × List α :=
  let r1 := filterDrive pred xs
  let r2 := filterDrive (fun a => !(pred a)) r1.2
  (r1.1, r2.1)

/-- The generator body of `unique_everseen(x, key)`, threading the seen
set.  `usable` models hashability: testing an unusable key for set
membership raises `TypeError` at that pull.  The result is the list of
elements the generator yields before it stops, paired with the error
terminating it, if any. -/
def unique_everseen_aux [DecidableEq β] (usable : β → Bool) (key : α → β)
    (seen : List β) : List α → List α × Option PyErr
  | [] => ([], none)
  | a :: rest =>
    let k := key a
    if usable k = false then ([], some .typeError)
    else if k ∈ seen then unique_everseen_aux usable key seen rest
    else
      let r := unique_everseen_aux usable key (k :: seen) rest
      (a :: r.1, r.2)

/-- `unique_everseen(x, key)` driven to exhaustion, starting from an empty
seen set. -/
def unique_everseen [DecidableEq β] (usable : β → Bool) (key : α → β)
    (xs : List α) : List α × Option PyErr :=
  unique_everseen_aux usable key [] xs

/-- Modelled from the spec: the first occurrence of each key, in original
order, disregarding usability — the reference output for the clean prefix
of `unique_everseen`. -/
def firstOccurrences [DecidableEq β] (key : α → β) (seen : List β) :
    List α → List α
  | [] => []
  | a :: rest =>
    if key a ∈ seen then firstOccurrences key seen rest
    else a :: firstOccurrences key (key a :: seen) rest

/-- The skipping loop inside a `groupby(x, key)` group: CPython's
`_grouper` discards elements whose key equals the current group's target
key `k` and ends the group at the first element whose key differs, which
then starts the next group. -/
def unique_justseen_go [DecidableEq β] (key : α → β) (k : β) : List α → List α
  | [] => []
  | b :: rest =>
    if key b = k then unique_justseen_go key k rest
    else b :: unique_justseen_go key (key b) rest

/-- `unique_justseen(x, key)`: `map(next, map(itemgetter(1), groupby(x,
key)))` — the first element of each group `groupby` forms. -/
def unique_justseen [DecidableEq β] (key : α → β) : List α → List α
  | [] => []
  | a :: rest => a :: unique_justseen_go key (key a) rest

/-- Modelled from the spec: splits off the maximal leading run of elements
whose key equals `k`, returning the run and the remainder. -/
def spanKey [DecidableEq β] (key : α → β) (k : β) : List α → List α × List α
  | [] => ([], [])
  | b :: rest =>
    if key b = k then
      let r := spanKey key k rest
      (b :: r.1, r.2)
    else ([], b :: rest)

theorem spanKey_snd_length [DecidableEq β] (key : α → β) (k : β) :
    ∀ l : List α, (spanKey key k l).2.length ≤ l.length := by
  intro l
  induction l with
  | nil => simp [spanKey]
  | cons b rest ih =>
    simp only [spanKey]
    split
    · exact Nat.le_trans ih (Nat.le_succ _)
    · simp

theorem spanKey_append [DecidableEq β] (key : α → β) (k : β) :
    ∀ l : List α, (spanKey key k l).1 ++ (spanKey key k l).2 = l := by
  intro l
  induction l with
  | nil => simp [spanKey]
  | cons b rest ih =>
    simp only [spanKey]
    split
    · simpa using ih
    · simp

theorem spanKey_fst_keys [DecidableEq β] (key : α → β) (k : β) :
    ∀ l : List α, ∀ b ∈ (spanKey key k l).1, key b = k := by
  intro l
  induction l with
  | nil => simp [spanKey]
  | cons c rest ih =>
    simp only [spanKey]
    split
    · intro b hb
      rcases List.mem_cons.mp hb with h | h
      · subst h; assumption
      · exact ih b h
    · simp

theorem spanKey_snd_head [DecidableEq β] (key : α → β) (k : β) :
    ∀ l : List α, ∀ b r, (spanKey key k l).2 = b :: r → key b ≠ k := by
  intro l
  induction l with
  | nil => simp [spanKey]
  | cons c rest ih =>
    simp only [spanKey]
    split
    · exact ih
    · intro b r hb
      cases hb
      assumption

/-- Modelled from the spec: the decomposition of a list into its maximal
runs of consecutive elements sharing a key. -/
def keyRuns [DecidableEq β] (key : α → β) : List α → List (List α)
  | [] => []
  | a :: rest =>
    (a :: (spanKey key (key a) rest).1) :: keyRuns key (spanKey key (key a) rest).2
termination_by l => l.length
decreasing_by
  exact Nat.lt_succ_of_le (spanKey_snd_length key (key a) rest)

/-- One element from each still-active input, in input order: the yields
of one full round of `roundrobin`. -/
def rrHeads (q : List (List α)) : List α := q.filterMap List.head?

/-- The still-active inputs after a round, each advanced one element. -/
def rrTails (q : List (List α)) : List (List α) := q.filterMap List.tail?

/-- The deque loop of `roundrobin`: pop the front iterator, yield its next
element if it has one and re-append it, drop it once exhausted. -/
def rrLoop : List (List α) → List α
  | [] => []
  | [] :: rest => rrLoop rest
  | (a :: tl) :: rest => a :: rrLoop (rest ++ [tl])
termination_by q => 2 * (q.map List.length).sum + q.length
decreasing_by
  all_goals try simp
  all_goals omega

/-- `roundrobin(*args)`: zero inputs yield nothing, one input is streamed
verbatim, otherwise a first pass yields one element per non-empty input
while enqueuing the advanced iterators, and the deque loop finishes the
interleaving. -/
def roundrobin (args : List (List α)) : List α :=
  match args with
  | [] => []
  | [x] => x
  | _ => rrHeads args ++ rrLoop (rrTails args)

theorem rrLoop_round (q : List (List α)) :
    ∀ acc : List (List α), rrLoop (q ++ acc) = rrHeads q ++ rrLoop (acc ++ rrTails q) := by
  induction q with
  | nil => intro acc; simp [rrHeads, rrTails]
  | cons l rest ih =>
    intro acc
    match l with
    | [] =>
      show rrLoop ([] :: (rest ++ acc)) = _
      rw [rrLoop]
      simpa [rrHeads, rrTails] using ih acc
    | a :: tl =>
      show rrLoop ((a :: tl) :: (rest ++ acc)) = _
      rw [rrLoop]
      have h := ih (acc ++ [tl])
      simp only [List.append_assoc] at h ⊢
      simp [rrHeads, rrTails, h]

theorem rrLoop_eq (q : List (List α)) :
    rrLoop q = rrHeads q ++ rrLoop (rrTails q) := by
  simpa using rrLoop_round q []

theorem rrLoop_single (x : List α) : rrLoop [x] = x := by
  induction x with
  | nil => rw [rrLoop, rrLoop]
  | cons a tl ih =>
    rw [rrLoop]
    simpa using ih

theorem roundrobin_eq_rrLoop (args : List (List α)) :
    roundrobin args = rrLoop args := by
  match args with
  | [] => rw [rrLoop]; rfl
  | [x] => simpa [roundrobin] using (rrLoop_single x).symm
  | a :: b :: rest =>
    show rrHeads _ ++ rrLoop (rrTails _) = _
    exact (rrLoop_eq _).symm

theorem rrLoop_length (q : List (List α)) :
    (rrLoop q).length = (q.map List.length).sum := by
  induction q using rrLoop.induct with
  | case1 => simp [rrLoop]
  | case2 rest ih => rw [rrLoop]; simpa using ih
  | case3 a tl rest ih => rw [rrLoop]; simp at ih ⊢; omega

/-- C3: `roundrobin` with zero inputs yields nothing; with one input `S`
it yields exactly `S` in order; for every list of inputs the output
length equals the sum of the input lengths; the interleaving is fair —
the output is one element from each still-active input, in input order,
followed by the round-robin of the advanced inputs, so no active input
contributes a second element in a round before every active input has
contributed one; and `roundrobin([0],[1,4],[2,5,7],[3,6,8,9])` yields
`[0,1,2,3,4,5,6,7,8,9]`. -/
theorem C3_roundrobin (α : Type) :
    roundrobin ([] : List (List α)) = [] ∧
    (∀ s : List α, roundrobin [s] = s) ∧
    (∀ args : List (List α), (roundrobin args).length = (args.map List.length).sum) ∧
    (∀ args : List (List α), roundrobin args = rrHeads args ++ roundrobin (rrTails args)) ∧
    roundrobin [[0], [1, 4], [2, 5, 7], [3, 6, 8, 9]] = [0, 1, 2, 3, 4, 5, 6, 7, 8, 9] := by
  refine ⟨rfl, fun s => rfl, fun args => ?_, fun args => ?_, ?_⟩
  · rw [roundrobin_eq_rrLoop, rrLoop_length]
  · rw [roundrobin_eq_rrLoop, roundrobin_eq_rrLoop, ← rrLoop_eq]
  · simp [roundrobin, rrHeads, rrTails, rrLoop]

theorem count_filter_add [DecidableEq α] (pred : α → Bool) (xs : List α) (a : α) :
    (xs.filter pred).count a + (xs.filter fun b => !(pred b)).count a = xs.count a := by
  have h := List.count_eq_count_filter_add (fun b => pred b = true) xs a
  simpa using h.symm

/-- C1 (counterexample): `partition` does not buffer a one-shot source —
`filter` and `filterfalse` wrap the same iterator.  With the even
predicate over the one-shot source `0,1,2,3`, driving the first output to
exhaustion and then the second yields `[0,2]` and `[]`: the element `1`
appears in neither output, refuting the claim that every element of the
source appears in exactly one of the two outputs. -/
theorem C1_counterexample :
    (partition_oneshot (fun n => n % 2 == 0) [0, 1, 2, 3]).1 = [0, 2] ∧
    (partition_oneshot (fun n => n % 2 == 0) [0, 1, 2, 3]).2 = [] ∧
    ¬ (1 ∈ (partition_oneshot (fun n => n % 2 == 0) [0, 1, 2, 3]).1 ∨
       1 ∈ (partition_oneshot (fun n => n % 2 == 0) [0, 1, 2, 3]).2) := by
  decide

/-- C1 (amended): over a re-iterable source, `partition(pred, seq)`
returns two sequences, the first yielding exactly the elements where the
predicate holds and the second exactly those where it does not, in
order, with every occurrence of every element of the source appearing in
exactly one of the two outputs.  (Over a one-shot iterator source the two
outputs share the single underlying iterator without buffering, so an
element consumed while driving one output is never yielded by the
other.) -/
theorem C1_partition_reiterable (α : Type) [DecidableEq α] (pred : α → Bool) (xs : List α) :
    (partition pred xs).1 = xs.filter pred ∧
    (partition pred xs).2 = xs.filter (fun a => !(pred a)) ∧
    ∀ a : α, (partition pred xs).1.count a + (partition pred xs).2.count a = xs.count a := by
  exact ⟨rfl, rfl, fun a => count_filter_add pred xs a⟩

theorem take_min_length (l : List α) (n : Nat) : l.take (min n l.length) = l.take n := by
  rcases Nat.le_total n l.length with h | h
  · rw [Nat.min_eq_left h]
  · rw [Nat.min_eq_right h, List.take_of_length_le h, List.take_of_length_le (Nat.le_refl _)]

theorem reverse_take_reverse (l : List α) (n : Nat) :
    (l.reverse.take n).reverse = l.drop (l.length - n) := by
  rw [← List.rtake_eq_reverse_take_reverse, List.rtake]

/-- C4: for a well-behaved input of length `L`, `head(S, n)` with `n ≥ 0`
yields the first `min(n, L)` elements in order, `tail(S, n)` with `n ≥ 0`
yields the last `min(n, L)` elements in original order, and for `n > 0`
the dualities `head(S, -n) = tail(S, n)` and `tail(S, -n) = head(S, n)`
hold — whatever the input's capability flags, so in particular for both
reversible and forward-only inputs. -/
theorem C4_head_tail (x : PySeq α) (hwf : Coherent x) :
    (∀ n : Nat, head x (n : Int) = x.elems.take (min n x.elems.length)) ∧
    (∀ n : Nat, tail x (n : Int) = x.elems.drop (x.elems.length - n)) ∧
    (∀ n : Int, 0 < n → head x (-n) = tail x n ∧ tail x (-n) = head x n) := by
  have htail : ∀ n : Nat, tail x (n : Int) = x.elems.drop (x.elems.length - n) := by
    intro n
    match n with
    | 0 =>
      show head x (-(0 : Nat) : Int) = _
      norm_num [head, List.drop_length]
    | Nat.succ k =>
      show head x (-(Nat.succ k : Nat) : Int) = _
      rw [head]
      have hneg : ¬ (0 : Int) ≤ -(Nat.succ k : Nat) := by omega
      rw [if_neg hneg]
      have hm : ((-(-(Nat.succ k : Nat) : Int)).toNat) = Nat.succ k := by omega
      by_cases hr : x.reversible
      · rw [show x.revElems = x.elems.reverse from hwf] at *
        simp [hr, hm, reverse_take_reverse]
      · simp [hr, hm]
  refine ⟨?_, htail, ?_⟩
  · intro n
    rw [head, if_pos (by omega), take_min_length]
    simp
  · intro n hn
    constructor
    · rfl
    · show head x (- -n) = head x n
      rw [neg_neg]

theorem nthUnchecked_nonneg (x : PySeq α) (hwf : Coherent x) (k : Nat)
    (hk : k < x.elems.length) : nthUnchecked x (k : Int) = x.elems[k]? := by
  have hrev : x.revElems = x.elems.reverse := hwf
  simp only [nthUnchecked]
  by_cases hs : x.sized = true
  · rw [if_pos hs]
    have hn1 : (if ((k : Int)) < 0 then (k : Int) + x.elems.length else (k : Int)) = (k : Int) :=
      if_neg (by omega)
    rw [hn1, if_neg (by omega)]
    have ht : ((k : Int)).toNat = k := by omega
    rw [ht]
    by_cases hi : x.indexable = true
    · rw [if_pos hi]
    · rw [if_neg hi]
      by_cases hr2 : x.reversible = true ∧ x.elems.length / 2 ≤ k
      · rw [if_pos hr2, hrev, List.getElem?_reverse (by omega)]
        congr 1
        omega
      · rw [if_neg hr2]
  · rw [if_neg hs, if_neg (by omega : ¬ ((k : Int) < 0))]
    simp

theorem nthUnchecked_neg_in (x : PySeq α) (hwf : Coherent x) (k : Nat)
    (h1 : 1 ≤ k) (h2 : k ≤ x.elems.length) :
    nthUnchecked x (-(k : Int)) = x.elems[x.elems.length - k]? := by
  have hrev : x.revElems = x.elems.reverse := hwf
  simp only [nthUnchecked]
  by_cases hs : x.sized = true
  · rw [if_pos hs]
    have hn1 : (if (-(k : Int)) < 0 then -(k : Int) + x.elems.length else -(k : Int)) =
        ((x.elems.length - k : Nat) : Int) := by
      rw [if_pos (by omega)]
      omega
    rw [hn1, if_neg (by omega)]
    have ht : (((x.elems.length - k : Nat) : Int)).toNat = x.elems.length - k := by omega
    rw [ht]
    by_cases hi : x.indexable = true
    · rw [if_pos hi]
    · rw [if_neg hi]
      by_cases hr2 : x.reversible = true ∧ x.elems.length / 2 ≤ x.elems.length - k
      · rw [if_pos hr2, hrev, List.getElem?_reverse (by omega)]
        congr 1
        omega
      · rw [if_neg hr2]
  · rw [if_neg hs, if_pos (by omega : (-(k : Int)) < 0),
      if_neg (by omega)]
    congr 1
    omega

theorem nthUnchecked_out (x : PySeq α) (n : Int)
    (h : (x.elems.length : Int) ≤ n ∨ n < -(x.elems.length : Int)) :
    nthUnchecked x n = none := by
  simp only [nthUnchecked]
  by_cases hs : x.sized = true
  · rw [if_pos hs]
    rcases h with h | h
    · have hn1 : (if n < 0 then n + (x.elems.length : Int) else n) = n := if_neg (by omega)
      rw [hn1, if_pos (Or.inr (by omega))]
    · have hn1 : (if n < 0 then n + (x.elems.length : Int) else n) = n + x.elems.length :=
        if_pos (by omega)
      rw [hn1, if_pos (Or.inl (by omega))]
  · rw [if_neg hs]
    rcases h with h | h
    · rw [if_neg (by omega : ¬ n < 0)]
      apply List.getElem?_eq_none
      omega
    · rw [if_pos (by omega : n < 0), if_pos (by omega)]

/-- C2: for every well-behaved non-empty input `S` of length `L` — sized
or single-pass, with any combination of capability flags — `nth(S, k)`
returns the element at forward position `k` for `0 ≤ k < L`; `nth(S, -k)`
equals `nth(S, L-k)` for `1 ≤ k ≤ L`; and for `k ≥ L` or `k < -L`, `nth`
raises `IndexError` with no default and returns the supplied default
otherwise. -/
theorem C2_nth (x : PySeq α) (hwf : Coherent x) (hne : x.elems ≠ []) :
    (∀ k : Nat, ∀ hk : k < x.elems.length,
      nth x (k : Int) none = .ok (x.elems.get ⟨k, hk⟩)) ∧
    (∀ k : Nat, 1 ≤ k → k ≤ x.elems.length →
      nth x (-(k : Int)) none = nth x ((x.elems.length : Int) - k) none) ∧
    (∀ n : Int, (x.elems.length : Int) ≤ n ∨ n < -(x.elems.length : Int) →
      nth x n none = .error .indexError ∧ ∀ d : α, nth x n (some d) = .ok d) := by
  refine ⟨fun k hk => ?_, fun k h1 h2 => ?_, fun n h => ⟨?_, fun d => ?_⟩⟩
  · rw [nth.eq_def, nthUnchecked_nonneg x hwf k hk, List.getElem?_eq_getElem hk]
    rfl
  · have hL : x.elems.length - k < x.elems.length := by
      have := List.length_pos.mpr hne
      omega
    have hcast : ((x.elems.length : Int) - k) = ((x.elems.length - k : Nat) : Int) := by
      omega
    rw [nth.eq_def, nth.eq_def, nthUnchecked_neg_in x hwf k h1 h2, hcast,
      nthUnchecked_nonneg x hwf _ hL]
  · rw [nth.eq_def, nthUnchecked_out x n h]
  · rw [nth.eq_def, nthUnchecked_out x n h]

/-- C8: capability dispatch never changes the result of `nth` — for a
well-behaved sized input that is reversible but not indexable, where the
implementation walks the reverse traversal whenever the normalized index
is in the back half, the result for every index and every default equals
what the identical input restricted to the plain forward walk returns. -/
theorem C8_nth_dispatch (x : PySeq α) (hwf : Coherent x) (hs : x.sized = true)
    (hr : x.reversible = true) (hi : x.indexable = false) (n : Int) (dflt : Option α) :
    nth x n dflt = nth { x with reversible := false } n dflt := by
  have hrev : x.revElems = x.elems.reverse := hwf
  have hcore : nthUnchecked x n = nthUnchecked { x with reversible := false } n := by
    simp only [nthUnchecked, hs, hi, hr, hrev, if_true, Bool.false_eq_true, false_and,
      if_false, true_and]
    generalize (if n < 0 then n + (x.elems.length : Int) else n) = n1
    split
    · rfl
    · rename_i hrange
      push_neg at hrange
      by_cases hb : x.elems.length / 2 ≤ n1.toNat
      · rw [if_pos hb, List.getElem?_reverse (by omega)]
        congr 1
        omega
      · rw [if_neg hb]
  rw [nth.eq_def, nth.eq_def, hcore]

/-- C5: on a well-behaved empty input, `first` and `last` raise
`ValueError` and `nth` raises `IndexError` (for every index) when no
default is supplied; and with a default supplied, each returns exactly
the supplied value — whatever that value is, so in particular for falsy
Python values, since the result is the value itself, not a truthiness
test of it. -/
theorem C5_empty_defaults (x : PySeq α) (hwf : Coherent x) (he : x.elems = []) :
    first x none = .error .valueError ∧
    last x none = .error .valueError ∧
    (∀ n : Int, nth x n none = .error .indexError) ∧
    (∀ d : α, first x (some d) = .ok d ∧ last x (some d) = .ok d ∧
      ∀ n : Int, nth x n (some d) = .ok d) := by
  have hrev : x.revElems = [] := by
    rw [show x.revElems = x.elems.reverse from hwf, he]
    rfl
  have hout : ∀ n : Int, nthUnchecked x n = none := by
    intro n
    apply nthUnchecked_out
    rw [he]
    simp
    omega
  refine ⟨?_, ?_, fun n => ?_, fun d => ⟨?_, ?_, fun n => ?_⟩⟩
  · rw [first.eq_def, he]
    rfl
  · rw [last.eq_def, he, hrev]
    cases hr : x.reversible <;> simp
  · rw [nth.eq_def, hout n]
  · rw [first.eq_def, he]
    rfl
  · rw [last.eq_def, he, hrev]
    cases hr : x.reversible <;> simp
  · rw [nth.eq_def, hout n]

/-- C7: for every operation accepting a varadic default (`first`, `last`,
`first_true`, `first_false`, `last_true`, `last_false`, `nth`), supplying
more than one default makes the validation wrapper raise `TypeError`, for
every input sequence alike — the operation body never runs and no element
of the input influences the outcome. -/
theorem C7_varadic_default (x : PySeq α) (pred : α → Bool) (n : Int)
    (args : List α) (h : 1 < args.length) :
    first_checked x args = .error .typeError ∧
    last_checked x args = .error .typeError ∧
    first_true_checked x pred args = .error .typeError ∧
    first_false_checked x pred args = .error .typeError ∧
    last_true_checked x pred args = .error .typeError ∧
    last_false_checked x pred args = .error .typeError ∧
    nth_checked x n args = .error .typeError := by
  have hv : check_varadics args = false := by
    rw [check_varadics]
    simp
    omega
  refine ⟨?_, ?_, ?_, ?_, ?_, ?_, ?_⟩ <;>
    simp [first_checked, last_checked, first_true_checked, first_false_checked,
      last_true_checked, last_false_checked, nth_checked, hv]

/-- C10: `ncycles` and `repeatfunc` reject a negative repetition count
with `TypeError` at call time — the validation wrapper runs before the
generator body, so no element is produced and no function call is made —
whereas `nth`, `head` and `tail` accept negative integers with
from-the-end meaning: `head(x, n)` delegates to the `tail` behaviour and
`tail(x, n)` to the `head` behaviour on the negated count, and a negative
index never makes `nth` raise `TypeError`. -/
theorem C10_negative_counts (x : PySeq α) (f : Nat → α) (n : Int) (hn : n < 0) :
    ncycles_checked x n = .error .typeError ∧
    repeatfunc_checked f n = .error .typeError ∧
    head x n = tail x (-n) ∧ tail x n = head x (-n) ∧
    ∀ dflt : Option α, nth x n dflt ≠ .error .typeError := by
  refine ⟨?_, ?_, ?_, rfl, fun dflt => ?_⟩
  · rw [ncycles_checked, if_pos hn]
  · rw [repeatfunc_checked, if_pos hn]
  · rw [tail, neg_neg]
  · rw [nth.eq_def]
    cases nthUnchecked x n <;> cases dflt <;> simp

theorem uea_clean_no_err [DecidableEq β] (usable : β → Bool) (key : α → β) :
    ∀ (pre : List α) (seen : List β), (∀ b ∈ pre, usable (key b) = true) →
      (unique_everseen_aux usable key seen pre).2 = none := by
  intro pre
  induction pre with
  | nil => intro seen _; rfl
  | cons b t ih =>
    intro seen hpre
    have hb : usable (key b) = true := hpre b (by simp)
    have ht : ∀ c ∈ t, usable (key c) = true := fun c hc => hpre c (by simp [hc])
    by_cases hmem : key b ∈ seen <;>
      simp [unique_everseen_aux, hb, hmem, ih seen ht, ih (key b :: seen) ht]

theorem uea_clean_eq_firstOccurrences [DecidableEq β] (usable : β → Bool) (key : α → β) :
    ∀ (pre : List α) (seen : List β), (∀ b ∈ pre, usable (key b) = true) →
      (unique_everseen_aux usable key seen pre).1 = firstOccurrences key seen pre := by
  intro pre
  induction pre with
  | nil => intro seen _; rfl
  | cons b t ih =>
    intro seen hpre
    have hb : usable (key b) = true := hpre b (by simp)
    have ht : ∀ c ∈ t, usable (key c) = true := fun c hc => hpre c (by simp [hc])
    by_cases hmem : key b ∈ seen <;>
      simp [unique_everseen_aux, firstOccurrences, hb, hmem, ih seen ht, ih (key b :: seen) ht]

theorem uea_error_at_first [DecidableEq β] (usable : β → Bool) (key : α → β)
    (a : α) (rest : List α) (ha : usable (key a) = false) :
    ∀ (pre : List α) (seen : List β), (∀ b ∈ pre, usable (key b) = true) →
      unique_everseen_aux usable key seen (pre ++ a :: rest) =
        ((unique_everseen_aux usable key seen pre).1, some .typeError) := by
  intro pre
  induction pre with
  | nil =>
    intro seen _
    simp only [List.nil_append, unique_everseen_aux, ha]
    rfl
  | cons b t ih =>
    intro seen hpre
    have hb : usable (key b) = true := hpre b (by simp)
    have ht : ∀ c ∈ t, usable (key c) = true := fun c hc => hpre c (by simp [hc])
    by_cases hmem : key b ∈ seen <;>
      simp [unique_everseen_aux, hb, hmem, ih seen ht, ih (key b :: seen) ht]

/-- C6: when the input splits as a clean prefix (every key usable as a set
member), a first offending element (unusable key), and an arbitrary
remainder, `unique_everseen` raises `TypeError` lazily at the pull that
reaches the offending element — having first yielded exactly what it
yields on the clean prefix alone, namely the first occurrence of each
key in original order — and on the clean prefix alone it terminates
without error. -/
theorem C6_unique_everseen (α β : Type) [DecidableEq β] (usable : β → Bool)
    (key : α → β) (pre : List α) (a : α) (rest : List α)
    (hpre : ∀ b ∈ pre, usable (key b) = true) (ha : usable (key a) = false) :
    unique_everseen usable key (pre ++ a :: rest) =
      (firstOccurrences key [] pre, some .typeError) ∧
    unique_everseen usable key pre = (firstOccurrences key [] pre, none) := by
  constructor
  · rw [unique_everseen, uea_error_at_first usable key a rest ha pre [] hpre,
      uea_clean_eq_firstOccurrences usable key pre [] hpre]
  · rw [unique_everseen]
    have h1 := uea_clean_eq_firstOccurrences usable key pre [] hpre
    have h2 := uea_clean_no_err usable key pre [] hpre
    exact Prod.ext h1 h2

theorem go_spanKey [DecidableEq β] (key : α → β) (k : β) :
    ∀ l : List α, unique_justseen_go key k l = unique_justseen key (spanKey key k l).2 := by
  intro l
  induction l with
  | nil => rfl
  | cons b rest ih =>
    simp only [unique_justseen_go, spanKey]
    split
    · exact ih
    · rfl

theorem uj_eq_run_firsts [DecidableEq β] (key : α → β) :
    ∀ xs : List α, unique_justseen key xs = (keyRuns key xs).filterMap List.head? := by
  intro xs
  induction xs using keyRuns.induct key with
  | case1 => rw [keyRuns]; rfl
  | case2 a rest ih =>
    rw [keyRuns, show unique_justseen key (a :: rest) =
      a :: unique_justseen_go key (key a) rest from rfl, go_spanKey, ih]
    simp

theorem keyRuns_flatten [DecidableEq β] (key : α → β) :
    ∀ xs : List α, (keyRuns key xs).flatten = xs := by
  intro xs
  induction xs using keyRuns.induct key with
  | case1 => rw [keyRuns]; rfl
  | case2 a rest ih =>
    rw [keyRuns]
    simp only [List.flatten_cons, ih, List.cons_append]
    rw [spanKey_append]

theorem keyRuns_runs [DecidableEq β] (key : α → β) :
    ∀ xs : List α, ∀ g ∈ keyRuns key xs,
      ∃ c tl, g = c :: tl ∧ ∀ b ∈ tl, key b = key c := by
  intro xs
  induction xs using keyRuns.induct key with
  | case1 => simp [keyRuns]
  | case2 a rest ih =>
    rw [keyRuns]
    intro g hg
    rcases List.mem_cons.mp hg with h | h
    · exact ⟨a, (spanKey key (key a) rest).1, h, spanKey_fst_keys key (key a) rest⟩
    · exact ih g h

theorem keyRuns_chain [DecidableEq β] (key : α → β) :
    ∀ xs : List α, List.Chain'
      (fun g h => ∀ c d, g.head? = some c → h.head? = some d → key c ≠ key d)
      (keyRuns key xs) := by
  intro xs
  induction xs using keyRuns.induct key with
  | case1 => simp [keyRuns]
  | case2 a rest ih =>
    rw [keyRuns]
    rw [List.chain'_cons']
    refine ⟨?_, ih⟩
    intro y hy
    intro c d hc hd
    match hsnd : (spanKey key (key a) rest).2 with
    | [] =>
      rw [hsnd] at hy
      rw [keyRuns] at hy
      simp at hy
    | b :: r2 =>
      rw [hsnd] at hy
      rw [keyRuns] at hy
      simp only [List.head?_cons, Option.mem_def, Option.some.injEq] at hy
      have hkb : key b ≠ key a := spanKey_snd_head key (key a) rest b r2 hsnd
      simp only [List.head?_cons, Option.some.injEq] at hc
      rw [← hy] at hd
      simp only [List.head?_cons, Option.some.injEq] at hd
      rw [← hc, ← hd]
      exact fun hcon => hkb hcon.symm

/-- C9: `unique_justseen` yields specifically the first element of each
maximal run of consecutive elements sharing the same key, in run order:
its output is the list of run heads of the run decomposition, which
concatenates back to the input, consists of non-empty runs whose members
all share the head's key, with adjacent runs carrying different keys; and
on `CCAaBE` with a lower-casing key it yields `C`, `A`, `B`, `E` — the
run `Aa` is represented by its first element `A`. -/
theorem C9_unique_justseen (α β : Type) [DecidableEq β] (key : α → β) :
    (∀ xs : List α, unique_justseen key xs = (keyRuns key xs).filterMap List.head?) ∧
    (∀ xs : List α, (keyRuns key xs).flatten = xs) ∧
    (∀ xs : List α, ∀ g ∈ keyRuns key xs,
      ∃ c tl, g = c :: tl ∧ ∀ b ∈ tl, key b = key c) ∧
    (∀ xs : List α, List.Chain'
      (fun g h => ∀ c d, g.head? = some c → h.head? = some d → key c ≠ key d)
      (keyRuns key xs)) ∧
    unique_justseen Char.toLower ['C', 'C', 'A', 'a', 'B', 'E'] = ['C', 'A', 'B', 'E'] := by
  exact ⟨uj_eq_run_firsts key, keyRuns_flatten key, keyRuns_runs key,
    keyRuns_chain key, by decide⟩

/-- Witness for C2 at the sized input `[10, 20, 30]` and index `1`. -/
theorem C2_nth_witness :
    Coherent (PySeq.ofList [10, 20, 30] true false false) ∧
    (PySeq.ofList [10, 20, 30] true false false).elems ≠ [] ∧
    nth (PySeq.ofList [10, 20, 30] true false false) ((1 : Nat) : Int) none = .ok 20 := by
  have h := C2_nth (PySeq.ofList [10, 20, 30] true false false)
    (coherent_ofList _ _ _ _) (by decide)
  refine ⟨coherent_ofList _ _ _ _, by decide, ?_⟩
  exact (h.1 1 (by decide)).trans (by rfl)

/-- Witness for C4 at the reversible input `[1, 2, 3]` and count `2`. -/
theorem C4_head_tail_witness :
    Coherent (PySeq.ofList [1, 2, 3] true true false) ∧
    tail (PySeq.ofList [1, 2, 3] true true false) ((2 : Nat) : Int) = [2, 3] := by
  refine ⟨coherent_ofList _ _ _ _, ?_⟩
  have h := (C4_head_tail (PySeq.ofList [1, 2, 3] true true false)
    (coherent_ofList _ _ _ _)).2.1 2
  exact h.trans (by decide)

/-- Witness for C5 at the empty input, with the falsy default `0`. -/
theorem C5_empty_defaults_witness :
    Coherent (PySeq.ofList ([] : List Nat) false false false) ∧
    (PySeq.ofList ([] : List Nat) false false false).elems = [] ∧
    first (PySeq.ofList ([] : List Nat) false false false) none = .error .valueError ∧
    first (PySeq.ofList ([] : List Nat) false false false) (some 0) = .ok 0 := by
  have h := C5_empty_defaults (PySeq.ofList ([] : List Nat) false false false)
    (coherent_ofList _ _ _ _) rfl
  exact ⟨coherent_ofList _ _ _ _, rfl, h.1, (h.2.2.2 0).1⟩

/-- Witness for C6: the identity key with `2` unusable, after the clean
prefix `[1, 1, 3]`. -/
theorem C6_unique_everseen_witness :
    (∀ b ∈ [1, 1, 3], (fun k : Nat => !(k == 2)) (id b) = true) ∧
    (fun k : Nat => !(k == 2)) (id 2) = false ∧
    unique_everseen (fun k : Nat => !(k == 2)) id ([1, 1, 3] ++ 2 :: [7]) =
      (firstOccurrences id [] [1, 1, 3], some .typeError) := by
  have h := C6_unique_everseen Nat Nat (fun k => !(k == 2)) id [1, 1, 3] 2 [7]
    (by decide) (by decide)
  exact ⟨by decide, by decide, h.1⟩

/-- Witness for C7: two defaults supplied to `first`. -/
theorem C7_varadic_default_witness :
    1 < ([5, 6] : List Nat).length ∧
    first_checked (PySeq.ofList [1] true false false) [5, 6] = .error .typeError := by
  have h := C7_varadic_default (PySeq.ofList [1] true false false)
    (fun _ => true) 0 [5, 6] (by decide)
  exact ⟨by decide, h.1⟩

/-- Witness for C8: a sized, reversible, non-indexable input with a
back-half index. -/
theorem C8_nth_dispatch_witness :
    Coherent (PySeq.ofList [1, 2, 3, 4] true true false) ∧
    nth (PySeq.ofList [1, 2, 3, 4] true true false) 3 none =
      nth { PySeq.ofList [1, 2, 3, 4] true true false with reversible := false } 3 none := by
  exact ⟨coherent_ofList _ _ _ _,
    C8_nth_dispatch (PySeq.ofList [1, 2, 3, 4] true true false)
      (coherent_ofList _ _ _ _) rfl rfl rfl 3 none⟩

/-- Witness for C10 at the negative count `-2`. -/
theorem C10_negative_counts_witness :
    (-2 : Int) < 0 ∧
    ncycles_checked (PySeq.ofList [1, 2] true false false) (-2) = .error .typeError := by
  have h := C10_negative_counts (PySeq.ofList [1, 2] true false false)
    (fun k => k) (-2) (by decide)
  exact ⟨by decide, h.1⟩

end Moreitertools
